import Mathlib

/-! Shallow embedding of the job scheduling engine of `src/task2/sheduler.py`:
the job model, the Round Robin strategy (`round_robin_scheduling`), the
Priority strategy (`priority_scheduling`), and the algorithm dispatch of
`process_job_queue`.  File I/O (`load_jobs`, `save_jobs`,
`append_completed_job`, `log_event`) is modelled by explicit inputs and
outputs: a run receives the loaded pending list and returns the emitted
trace, the emitted completed records, and the final contents of the pending
store. -/

namespace Scheduler

/-- A pending job record as produced by `load_jobs` from one line
`student_id|job_name|exec_time|priority` of the queue file. -/
structure Job where
  student_id : String
  job_name : String
  exec_time : Int
  priority : Int
deriving DecidableEq

/-- A Round Robin working record: a job together with the `remaining` field
that `round_robin_scheduling` adds (`job["remaining"] = job["exec_time"]`). -/
structure RRJob where
  job : Job
  remaining : Int
deriving DecidableEq

/-- One entry of the `execution_log` list built by `round_robin_scheduling`:
`(student_id, job_name, run_time, remaining)`. -/
structure TraceEntry where
  student_id : String
  job_name : String
  run_time : Int
  remaining : Int
deriving DecidableEq

/-- One `PRIORITY_EXECUTION` log line emitted by `priority_scheduling`:
`(student_id, job_name, exec_time, priority)`. -/
structure PriorityLogEntry where
  student_id : String
  job_name : String
  exec_time : Int
  priority : Int
deriving DecidableEq

/-- A record appended by `append_completed_job`: the job plus the algorithm
name (the wall-clock timestamp is outside the model). -/
structure CompletedRecord where
  job : Job
  algorithm : String
deriving DecidableEq

/-- `TIME_QUANTUM = 5` in `round_robin_scheduling`. -/
def TIME_QUANTUM : Int := 5

/-- Initialisation loop of `round_robin_scheduling`: give each job its own
`remaining` field, set to `exec_time`. -/
def rrInit (jobs : List Job) : List RRJob :=
  jobs.map (fun j => ⟨j, j.exec_time⟩)

/-- The effect of one Round Robin cycle on a single working record:
an active job is granted `min(TIME_QUANTUM, remaining)` and decremented,
a finished (or never-runnable) job is skipped unchanged. -/
def stepJob (j : RRJob) : RRJob :=
  if 0 < j.remaining then ⟨j.job, j.remaining - min TIME_QUANTUM j.remaining⟩
  else j

/-- One cycle of the Round Robin `while` loop: the inner `for job in jobs`
pass.  Returns the updated working records, the trace entries appended this
cycle, and the completed records appended this cycle (a job completes at the
moment its `remaining` reaches 0). -/
def rrCycle : List RRJob → List RRJob × List TraceEntry × List CompletedRecord
  | [] => ([], [], [])
  | j :: rest =>
    let r := rrCycle rest
    if j.remaining ≤ 0 then
      (j :: r.1, r.2.1, r.2.2)
    else
      let t := min TIME_QUANTUM j.remaining
      let rem := j.remaining - t
      (⟨j.job, rem⟩ :: r.1,
       ⟨j.job.student_id, j.job.job_name, t, rem⟩ :: r.2.1,
       (if rem = 0 then [⟨j.job, "RoundRobin"⟩] else []) ++ r.2.2)

/-- Total outstanding work, used as loop fuel: the sum of the (truncated)
remaining times. -/
def totalRem (js : List RRJob) : Nat :=
  (js.map (fun j => j.remaining.toNat)).sum

/-- The Round Robin `while any(job["remaining"] > 0 ...)` loop, with an
explicit fuel bound on the number of cycles.  `totalRem js` cycles always
suffice because every cycle with an active job strictly decreases
`totalRem`. -/
def rrLoopFuel : Nat → List RRJob → List TraceEntry × List CompletedRecord × List RRJob
  | 0, js => ([], [], js)
  | n + 1, js =>
    if js.any (fun j => 0 < j.remaining) then
      let c := rrCycle js
      let r := rrLoopFuel n c.1
      (c.2.1 ++ r.1, c.2.2 ++ r.2.1, r.2.2)
    else ([], [], js)

/-- The Round Robin cycle loop run to completion. -/
def rrRun (js : List RRJob) : List TraceEntry × List CompletedRecord × List RRJob :=
  rrLoopFuel (totalRem js) js

/-- `round_robin_scheduling`: on an empty queue it returns at once leaving
the store as it is; otherwise it runs the cycle loop over working copies and
then clears the store (`save_jobs([])`).  Result: (execution trace, completed
records, final pending store). -/
def round_robin_scheduling (jobs : List Job) :
    List TraceEntry × List CompletedRecord × List Job :=
  if jobs = [] then ([], [], jobs)
  else ((rrRun (rrInit jobs)).1, (rrRun (rrInit jobs)).2.1, [])

/-- The final state of the Round Robin working records after the cycle loop
(the private copies carrying `remaining`). -/
def rrFinalStates (jobs : List Job) : List RRJob :=
  (rrRun (rrInit jobs)).2.2

/-- Stable descending insertion used to model Python's
`sorted(jobs, key=lambda j: j["priority"], reverse=True)`: the inserted job
comes from earlier in the input than everything in the list, so it goes in
front of the first job whose priority does not exceed its own. -/
def insertDesc (j : Job) : List Job → List Job
  | [] => [j]
  | k :: rest =>
    if k.priority ≤ j.priority then j :: k :: rest
    else k :: insertDesc j rest

/-- Stable sort by `priority` descending (10 before 1), ties keeping input
order — the semantics of Python's stable `sorted(..., reverse=True)`. -/
def sortJobs : List Job → List Job
  | [] => []
  | j :: rest => insertDesc j (sortJobs rest)

/-- `priority_scheduling`: on an empty queue it returns at once; otherwise it
sorts by priority descending and, per job in sorted order, emits one
`PRIORITY_EXECUTION` log line and one completed record, then clears the
store.  Result: (priority log, completed records, final pending store). -/
def priority_scheduling (jobs : List Job) :
    List PriorityLogEntry × List CompletedRecord × List Job :=
  if jobs = [] then ([], [], jobs)
  else
    ((sortJobs jobs).map
       (fun j => ⟨j.student_id, j.job_name, j.exec_time, j.priority⟩),
     (sortJobs jobs).map (fun j => ⟨j, "Priority"⟩),
     [])

/-- Everything observable from one invocation of `process_job_queue`. -/
structure RunOutcome where
  trace : List TraceEntry
  prioLog : List PriorityLogEntry
  completed : List CompletedRecord
  queue : List Job
deriving DecidableEq

/-- `process_job_queue`: empty queue is a no-op; choice `"1"` runs Round
Robin, `"2"` runs Priority, anything else prints `Invalid choice` and
returns with the queue untouched. -/
def process_job_queue (jobs : List Job) (choice : String) : RunOutcome :=
  if jobs = [] then ⟨[], [], [], jobs⟩
  else if choice = "1" then
    let r := round_robin_scheduling jobs
    ⟨r.1, [], r.2.1, r.2.2⟩
  else if choice = "2" then
    let r := priority_scheduling jobs
    ⟨[], r.1, r.2.1, r.2.2⟩
  else ⟨[], [], [], jobs⟩

/-- The `run_time` values of the trace entries belonging to one job,
identified by student id and job name. -/
def jobGrants (tr : List TraceEntry) (j : Job) : List Int :=
  (tr.filter (fun e => e.student_id = j.student_id ∧ e.job_name = j.job_name)).map
    (fun e => e.run_time)

/-- The sequence of grants a single job receives across the Round Robin
cycles: while its remaining time is positive it gets
`min(TIME_QUANTUM, remaining)` per cycle.  `slicesFuel` carries the same
fuel bound as the loop. -/
def slicesFuel : Nat → Int → List Int
  | 0, _ => []
  | n + 1, r =>
    if 0 < r then min TIME_QUANTUM r :: slicesFuel n (r - min TIME_QUANTUM r)
    else []

/-- `slicesFuel` run to completion. -/
def slices (r : Int) : List Int := slicesFuel r.toNat r

/-! Properties of the stable descending sort used by `priority_scheduling`. -/

theorem insertDesc_perm (j : Job) (l : List Job) :
    List.Perm (insertDesc j l) (j :: l) := by
  induction l with
  | nil => simp [insertDesc]
  | cons k rest ih =>
    by_cases h : k.priority ≤ j.priority
    · simp [insertDesc, h]
    · simp only [insertDesc, if_neg h]
      exact (ih.cons k).trans (List.Perm.swap j k rest)

theorem sortJobs_perm (l : List Job) : List.Perm (sortJobs l) l := by
  induction l with
  | nil => simp [sortJobs]
  | cons j rest ih => exact (insertDesc_perm j (sortJobs rest)).trans (ih.cons j)

theorem pairwise_insertDesc (j : Job) (l : List Job)
    (h : l.Pairwise (fun a b => b.priority ≤ a.priority)) :
    (insertDesc j l).Pairwise (fun a b => b.priority ≤ a.priority) := by
  induction l with
  | nil => simp [insertDesc]
  | cons k rest ih =>
    rw [List.pairwise_cons] at h
    obtain ⟨hk, hrest⟩ := h
    by_cases hp : k.priority ≤ j.priority
    · simp only [insertDesc, if_pos hp]
      refine List.Pairwise.cons ?_ (List.Pairwise.cons hk hrest)
      intro x hx
      rcases List.mem_cons.mp hx with rfl | hx
      · exact hp
      · exact le_trans (hk x hx) hp
    · simp only [insertDesc, if_neg hp]
      refine List.Pairwise.cons ?_ (ih hrest)
      intro x hx
      have hx' : x = j ∨ x ∈ rest := by
        simpa using (insertDesc_perm j rest).mem_iff.mp hx
      rcases hx' with rfl | hx'
      · exact (not_le.mp hp).le
      · exact hk x hx'

theorem sortJobs_pairwise (l : List Job) :
    (sortJobs l).Pairwise (fun a b => b.priority ≤ a.priority) := by
  induction l with
  | nil => simp [sortJobs]
  | cons j rest ih => exact pairwise_insertDesc j _ ih

theorem filter_insertDesc (j : Job) (l : List Job) (p : Int) :
    (insertDesc j l).filter (fun k => k.priority = p)
      = if j.priority = p then j :: l.filter (fun k => k.priority = p)
        else l.filter (fun k => k.priority = p) := by
  induction l with
  | nil => by_cases h : j.priority = p <;> simp [insertDesc, List.filter, h]
  | cons k rest ih =>
    by_cases hp : k.priority ≤ j.priority
    · simp only [insertDesc, if_pos hp]
      by_cases hj : j.priority = p <;> simp [List.filter_cons, hj]
    · simp only [insertDesc, if_neg hp]
      by_cases hj : j.priority = p
      · have hkp : ¬(k.priority = p) := by
          intro hkp
          exact hp (le_of_eq (hkp.trans hj.symm))
        simp [List.filter_cons, hkp, ih, hj]
      · by_cases hkp : k.priority = p <;>
          simp [List.filter_cons, hkp, ih, hj]

theorem sortJobs_filter (l : List Job) (p : Int) :
    (sortJobs l).filter (fun k => k.priority = p)
      = l.filter (fun k => k.priority = p) := by
  induction l with
  | nil => simp [sortJobs]
  | cons j rest ih =>
    by_cases hj : j.priority = p <;>
      simp [sortJobs, filter_insertDesc, hj, ih, List.filter_cons]

/-- C2: the Priority strategy completes jobs in non-increasing priority
order, the sort is stable (jobs of equal priority keep their relative input
order), and each input job gets exactly one `PRIORITY_EXECUTION` trace
entry. -/
theorem priority_sorted_and_stable (jobs : List Job) :
    ((priority_scheduling jobs).2.1.map (fun c => c.job)).Pairwise
        (fun a b => b.priority ≤ a.priority)
    ∧ (∀ p : Int,
        ((priority_scheduling jobs).2.1.map (fun c => c.job)).filter
            (fun j => j.priority = p)
          = jobs.filter (fun j => j.priority = p))
    ∧ List.Perm
        ((priority_scheduling jobs).1.map
          (fun e => (e.student_id, e.job_name, e.exec_time, e.priority)))
        (jobs.map (fun j => (j.student_id, j.job_name, j.exec_time, j.priority))) := by
  by_cases h : jobs = []
  · subst h
    exact ⟨by simp [priority_scheduling], fun p => by simp [priority_scheduling],
      by simp [priority_scheduling]⟩
  · have hcomp : (priority_scheduling jobs).2.1.map (fun c => c.job) = sortJobs jobs := by
      simp only [priority_scheduling, if_neg h, List.map_map]
      exact List.map_id _
    have htr : (priority_scheduling jobs).1
        = (sortJobs jobs).map
            (fun j => ⟨j.student_id, j.job_name, j.exec_time, j.priority⟩) := by
      simp [priority_scheduling, if_neg h]
    refine ⟨?_, ?_, ?_⟩
    · rw [hcomp]; exact sortJobs_pairwise jobs
    · intro p; rw [hcomp]; exact sortJobs_filter jobs p
    · rw [htr, List.map_map]
      exact (sortJobs_perm jobs).map
        (fun j => (j.student_id, j.job_name, j.exec_time, j.priority))

/-- C7: running either algorithm (or the dispatcher) on an empty pending set
is a defined no-op: empty trace, empty completed set, queue untouched. -/
theorem run_on_empty_queue :
    round_robin_scheduling [] = ([], [], [])
    ∧ priority_scheduling [] = ([], [], [])
    ∧ ∀ choice : String, process_job_queue [] choice = ⟨[], [], [], []⟩ :=
  ⟨rfl, rfl, fun _ => rfl⟩

/-- C8: on a selector outside `{"1", "2"}`, `process_job_queue` refuses to
run: no trace entry, no priority log line, no completed record, and the
pending queue is returned unchanged. -/
theorem unknown_algorithm_refused (jobs : List Job) (choice : String)
    (h1 : choice ≠ "1") (h2 : choice ≠ "2") :
    process_job_queue jobs choice = ⟨[], [], [], jobs⟩ := by
  by_cases hj : jobs = []
  · subst hj; simp [process_job_queue]
  · simp [process_job_queue, if_neg hj, if_neg h1, if_neg h2]

theorem unknown_algorithm_refused_witness :
    ("3" : String) ≠ "1" ∧ ("3" : String) ≠ "2"
    ∧ process_job_queue [⟨"S1", "A", 12, 5⟩] "3" = ⟨[], [], [], [⟨"S1", "A", 12, 5⟩]⟩ :=
  ⟨by decide, by decide,
    unknown_algorithm_refused [⟨"S1", "A", 12, 5⟩] "3" (by decide) (by decide)⟩

/-- C9: after a successful run on a non-empty pending set, either strategy
replaces the pending store with the empty list. -/
theorem run_drains_queue (jobs : List Job) (hne : jobs ≠ []) :
    (round_robin_scheduling jobs).2.2 = [] ∧ (priority_scheduling jobs).2.2 = [] := by
  constructor <;> simp [round_robin_scheduling, priority_scheduling, if_neg hne]

theorem run_drains_queue_witness :
    ([⟨"S1", "A", 12, 5⟩] : List Job) ≠ []
    ∧ ((round_robin_scheduling [⟨"S1", "A", 12, 5⟩]).2.2 = []
       ∧ (priority_scheduling [⟨"S1", "A", 12, 5⟩]).2.2 = []) :=
  ⟨by decide, run_drains_queue [⟨"S1", "A", 12, 5⟩] (by decide)⟩

/-! Structure of one Round Robin cycle. -/

theorem stepJob_job (j : RRJob) : (stepJob j).job = j.job := by
  by_cases h : 0 < j.remaining <;> simp [stepJob, h]

theorem rrCycle_fst (js : List RRJob) : (rrCycle js).1 = js.map stepJob := by
  induction js with
  | nil => rfl
  | cons j rest ih =>
    by_cases h : j.remaining ≤ 0
    · have h' : ¬0 < j.remaining := not_lt.mpr h
      simp [rrCycle, h, stepJob, h', ih]
    · have h' : 0 < j.remaining := not_le.mp h
      simp [rrCycle, h, stepJob, h', ih]

theorem rrCycle_trace (js : List RRJob) :
    (rrCycle js).2.1
      = (js.filter (fun j => 0 < j.remaining)).map
          (fun j => ⟨j.job.student_id, j.job.job_name, min TIME_QUANTUM j.remaining,
                     j.remaining - min TIME_QUANTUM j.remaining⟩) := by
  induction js with
  | nil => rfl
  | cons j rest ih =>
    by_cases h : j.remaining ≤ 0
    · simp [rrCycle, h, List.filter_cons, not_lt.mpr h, ih]
    · simp [rrCycle, h, List.filter_cons, not_le.mp h, ih]

theorem rrCycle_comp (js : List RRJob) :
    (rrCycle js).2.2
      = (js.filter (fun j => 0 < j.remaining ∧ j.remaining ≤ TIME_QUANTUM)).map
          (fun j => ⟨j.job, "RoundRobin"⟩) := by
  induction js with
  | nil => rfl
  | cons j rest ih =>
    by_cases h : j.remaining ≤ 0
    · have h1 : ¬0 < j.remaining := not_lt.mpr h
      simp [rrCycle, h, List.filter_cons, h1, ih]
    · have h1 : 0 < j.remaining := not_le.mp h
      by_cases h5 : j.remaining ≤ TIME_QUANTUM
      · have hz : j.remaining - min TIME_QUANTUM j.remaining = 0 := by
          rw [min_eq_right h5]; exact sub_self _
        simp [rrCycle, h, List.filter_cons, h1, h5, hz, ih]
      · have hz : ¬(j.remaining - min TIME_QUANTUM j.remaining = 0) := by
          rw [min_eq_left (not_le.mp h5).le]
          have : (0 : Int) < TIME_QUANTUM := by norm_num [TIME_QUANTUM]
          omega
        simp [rrCycle, h, List.filter_cons, h1, h5, hz, ih]

/-! Fuel accounting: every cycle with an active job strictly shrinks the
total outstanding work. -/

theorem totalRem_cons (j : RRJob) (l : List RRJob) :
    totalRem (j :: l) = j.remaining.toNat + totalRem l := by
  simp [totalRem]

theorem stepJob_remaining_le (j : RRJob) :
    (stepJob j).remaining.toNat ≤ j.remaining.toNat := by
  by_cases h : 0 < j.remaining
  · simp only [stepJob, if_pos h]
    have h1 : min TIME_QUANTUM j.remaining ≤ j.remaining := min_le_right _ _
    have h2 : 0 < min TIME_QUANTUM j.remaining :=
      lt_min (by norm_num [TIME_QUANTUM]) h
    omega
  · simp [stepJob, h]

theorem stepJob_remaining_lt (j : RRJob) (h : 0 < j.remaining) :
    (stepJob j).remaining.toNat < j.remaining.toNat := by
  simp only [stepJob, if_pos h]
  have h1 : min TIME_QUANTUM j.remaining ≤ j.remaining := min_le_right _ _
  have h2 : 0 < min TIME_QUANTUM j.remaining :=
    lt_min (by norm_num [TIME_QUANTUM]) h
  omega

theorem totalRem_step_le (js : List RRJob) :
    totalRem (js.map stepJob) ≤ totalRem js := by
  induction js with
  | nil => exact le_refl _
  | cons j rest ih =>
    rw [List.map_cons, totalRem_cons, totalRem_cons]
    have := stepJob_remaining_le j
    omega

theorem totalRem_step_lt (js : List RRJob)
    (h : js.any (fun j => 0 < j.remaining) = true) :
    totalRem (js.map stepJob) < totalRem js := by
  induction js with
  | nil => simp at h
  | cons j rest ih =>
    rw [List.map_cons, totalRem_cons, totalRem_cons]
    simp only [List.any_cons, Bool.or_eq_true] at h
    rcases h with h | h
    · have h' : 0 < j.remaining := by simpa using h
      have h1 := stepJob_remaining_lt j h'
      have h2 := totalRem_step_le rest
      omega
    · have h1 := stepJob_remaining_le j
      have h2 := ih h
      omega

theorem totalRem_zero_rem (js : List RRJob) (h : totalRem js = 0) :
    ∀ x ∈ js, x.remaining.toNat = 0 := by
  induction js with
  | nil => intro x hx; simp at hx
  | cons j rest ih =>
    rw [totalRem_cons] at h
    intro x hx
    rcases List.mem_cons.mp hx with rfl | hx
    · omega
    · exact ih (by omega) x hx

theorem step_nonneg (js : List RRJob) (h : ∀ j ∈ js, 0 ≤ j.remaining) :
    ∀ j ∈ js.map stepJob, 0 ≤ j.remaining := by
  intro j hj
  rw [List.mem_map] at hj
  obtain ⟨a, ha, rfl⟩ := hj
  by_cases h0 : 0 < a.remaining
  · simp only [stepJob, if_pos h0]
    have := min_le_right TIME_QUANTUM a.remaining
    omega
  · simp only [stepJob, if_neg h0]
    exact h a ha

/-! Loop invariants of the Round Robin `while` loop. -/

theorem map_job_step (js : List RRJob) :
    (js.map stepJob).map (fun j => j.job) = js.map (fun j => j.job) := by
  induction js with
  | nil => rfl
  | cons j rest ih => simp [stepJob_job, ih]

theorem rrLoopFuel_final_jobs (fuel : Nat) (js : List RRJob)
    (hfuel : totalRem js ≤ fuel) :
    ((rrLoopFuel fuel js).2.2).map (fun j => j.job) = js.map (fun j => j.job) := by
  induction fuel generalizing js with
  | zero => rfl
  | succ n ih =>
    by_cases h : js.any (fun j => 0 < j.remaining) = true
    · have hlt := totalRem_step_lt js h
      simp only [rrLoopFuel, if_pos h]
      rw [rrCycle_fst, ih (js.map stepJob) (by omega), map_job_step]
    · simp only [rrLoopFuel, if_neg h]

theorem rrLoopFuel_final_zero (fuel : Nat) (js : List RRJob)
    (hfuel : totalRem js ≤ fuel) (hnn : ∀ j ∈ js, 0 ≤ j.remaining) :
    ∀ x ∈ (rrLoopFuel fuel js).2.2, x.remaining = 0 := by
  induction fuel generalizing js with
  | zero =>
    intro x hx
    have h0 : totalRem js = 0 := Nat.le_zero.mp hfuel
    have h1 := totalRem_zero_rem js h0 x hx
    have h2 := hnn x hx
    omega
  | succ n ih =>
    by_cases h : js.any (fun j => 0 < j.remaining) = true
    · intro x hx
      simp only [rrLoopFuel, if_pos h] at hx
      rw [rrCycle_fst] at hx
      have hlt := totalRem_step_lt js h
      exact ih (js.map stepJob) (by omega) (step_nonneg js hnn) x hx
    · intro x hx
      simp only [rrLoopFuel, if_neg h] at hx
      have hf : js.any (fun j => 0 < j.remaining) = false := by
        revert h; cases js.any (fun j => 0 < j.remaining) <;> simp
      have := List.any_eq_false.mp hf x hx
      have h2 := hnn x hx
      simp only [decide_eq_true_eq] at this
      omega

/-- C5: a scheduling run does not change any field of any input job record:
Round Robin works on private working copies (`rrInit`) whose embedded job
records are still exactly the input sequence when the loop ends, and every
completed record produced by Priority carries an unmodified input record. -/
theorem run_preserves_input_records (jobs : List Job) :
    (rrFinalStates jobs).map (fun j => j.job) = jobs
    ∧ ∀ c ∈ (priority_scheduling jobs).2.1, c.job ∈ jobs := by
  constructor
  · rw [rrFinalStates, rrRun, rrLoopFuel_final_jobs _ _ (le_refl _), rrInit,
      List.map_map]
    exact List.map_id _
  · intro c hc
    by_cases h : jobs = []
    · subst h; simp [priority_scheduling] at hc
    · simp only [priority_scheduling, if_neg h] at hc
      rw [List.mem_map] at hc
      obtain ⟨a, ha, rfl⟩ := hc
      exact (sortJobs_perm jobs).mem_iff.mp ha

/-- C6: the Round Robin cycle loop terminates for pending sets of jobs with
positive `total_time`: each cycle with an active job strictly decreases the
total outstanding work, and when the loop stops every working record has
`remaining = 0`. -/
theorem rr_terminates (jobs : List Job)
    (hpos : ∀ j ∈ jobs, 0 < j.exec_time) :
    (∀ x ∈ rrFinalStates jobs, x.remaining = 0)
    ∧ ∀ js : List RRJob, js.any (fun j => 0 < j.remaining) = true →
        totalRem (rrCycle js).1 < totalRem js := by
  constructor
  · intro x hx
    refine rrLoopFuel_final_zero _ _ (le_refl _) ?_ x hx
    intro j hj
    rw [rrInit, List.mem_map] at hj
    obtain ⟨a, ha, rfl⟩ := hj
    exact (hpos a ha).le
  · intro js h
    rw [rrCycle_fst]
    exact totalRem_step_lt js h

theorem rr_terminates_witness :
    (∀ j ∈ ([⟨"S1", "A", 7, 5⟩] : List Job), 0 < j.exec_time)
    ∧ ((∀ x ∈ rrFinalStates [⟨"S1", "A", 7, 5⟩], x.remaining = 0)
       ∧ ∀ js : List RRJob, js.any (fun j => 0 < j.remaining) = true →
           totalRem (rrCycle js).1 < totalRem js) :=
  ⟨by decide, rr_terminates [⟨"S1", "A", 7, 5⟩] (by decide)⟩

/-! Generic list plumbing shared by the trace lemmas. -/

theorem filter_of_map {α β : Type} (p : β → Bool) (f : α → β) (l : List α) :
    (l.map f).filter p = (l.filter (fun a => p (f a))).map f := by
  induction l with
  | nil => rfl
  | cons a rest ih =>
    cases hpa : p (f a) <;> simp [List.filter_cons, hpa, ih]

theorem filter_filter_eq {α : Type} (p q : α → Bool) (l : List α) :
    (l.filter p).filter q = l.filter (fun a => p a && q a) := by
  induction l with
  | nil => rfl
  | cons a rest ih =>
    cases hp : p a <;> cases hq : q a <;> simp [List.filter_cons, hp, hq, ih]

theorem filter_congr_mem {α : Type} {p q : α → Bool} {l : List α}
    (h : ∀ a ∈ l, p a = q a) : l.filter p = l.filter q := by
  induction l with
  | nil => rfl
  | cons a rest ih =>
    have ha := h a (List.mem_cons_self a rest)
    have ih' := ih (fun x hx => h x (List.mem_cons_of_mem a hx))
    cases hq : q a <;> rw [List.filter_cons, List.filter_cons, ha, hq, ih']

theorem map_congr_mem {α β : Type} {f g : α → β} {l : List α}
    (h : ∀ a ∈ l, f a = g a) : l.map f = l.map g := by
  induction l with
  | nil => rfl
  | cons a rest ih =>
    rw [List.map_cons, List.map_cons, h a (List.mem_cons_self a rest),
      ih (fun x hx => h x (List.mem_cons_of_mem a hx))]

theorem filter_comm_eq {α : Type} (p q : α → Bool) (l : List α) :
    (l.filter p).filter q = (l.filter q).filter p := by
  rw [filter_filter_eq, filter_filter_eq]
  exact filter_congr_mem (fun a _ => Bool.and_comm _ _)

/-! The completed records of a cycle are exactly the jobs whose trace entry
of that cycle shows `remaining = 0`, in trace order. -/

theorem comp_key_pred (j : RRJob) :
    (decide (0 < j.remaining) && decide (j.remaining - min TIME_QUANTUM j.remaining = 0))
      = decide (0 < j.remaining ∧ j.remaining ≤ TIME_QUANTUM) := by
  by_cases h : 0 < j.remaining
  · by_cases h5 : j.remaining ≤ TIME_QUANTUM
    · rw [min_eq_right h5]
      simp [h, h5]
    · rw [min_eq_left (not_le.mp h5).le]
      have hq : (0 : Int) < TIME_QUANTUM := by norm_num [TIME_QUANTUM]
      have h0 : ¬(j.remaining - TIME_QUANTUM = 0) := by omega
      simp [h, h5, h0]
  · simp [h]

theorem rrCycle_comp_keys (js : List RRJob) :
    ((rrCycle js).2.2).map (fun c => (c.job.student_id, c.job.job_name))
      = (((rrCycle js).2.1).filter (fun e => e.remaining = 0)).map
          (fun e => (e.student_id, e.job_name)) := by
  rw [rrCycle_comp, rrCycle_trace, filter_of_map, List.map_map, List.map_map,
    filter_filter_eq, filter_congr_mem (fun a _ => (comp_key_pred a).symm)]
  rfl

theorem rrLoopFuel_finish_order (fuel : Nat) (js : List RRJob)
    (hfuel : totalRem js ≤ fuel) :
    ((rrLoopFuel fuel js).2.1).map (fun c => (c.job.student_id, c.job.job_name))
      = (((rrLoopFuel fuel js).1).filter (fun e => e.remaining = 0)).map
          (fun e => (e.student_id, e.job_name)) := by
  induction fuel generalizing js with
  | zero => rfl
  | succ n ih =>
    by_cases h : js.any (fun j => 0 < j.remaining) = true
    · have hlt := totalRem_step_lt js h
      simp only [rrLoopFuel, if_pos h]
      rw [List.map_append, List.filter_append, List.map_append, rrCycle_comp_keys,
        rrCycle_fst, ih (js.map stepJob) (by omega)]
    · simp only [rrLoopFuel, if_neg h]
      rfl

/-- C4: under Round Robin a job is appended to `completed` exactly when its
trace entry shows `remaining = 0`, so `completed` is in finish order; on the
input `[(S1,A,12,5), (S2,B,3,7)]` with quantum 5 the trace grants are A:5
(rem 7), B:3 (rem 0), A:5 (rem 2), A:2 (rem 0) and `completed = [B, A]`. -/
theorem rr_finish_order_and_scenario :
    (∀ jobs : List Job,
      ((round_robin_scheduling jobs).2.1).map (fun c => (c.job.student_id, c.job.job_name))
        = (((round_robin_scheduling jobs).1).filter (fun e => e.remaining = 0)).map
            (fun e => (e.student_id, e.job_name)))
    ∧ round_robin_scheduling [⟨"S1", "A", 12, 5⟩, ⟨"S2", "B", 3, 7⟩]
        = ([⟨"S1", "A", 5, 7⟩, ⟨"S2", "B", 3, 0⟩, ⟨"S1", "A", 5, 2⟩, ⟨"S1", "A", 2, 0⟩],
           [⟨⟨"S2", "B", 3, 7⟩, "RoundRobin"⟩, ⟨⟨"S1", "A", 12, 5⟩, "RoundRobin"⟩],
           []) := by
  constructor
  · intro jobs
    by_cases h : jobs = []
    · subst h; rfl
    · simp only [round_robin_scheduling, if_neg h]
      exact rrLoopFuel_finish_order _ _ (le_refl _)
  · decide

/-! Conservation of work: per job identity, the granted trace time plus the
still-outstanding time is invariant across the Round Robin loop. -/

theorem step_filter_active (js : List RRJob) :
    (js.map stepJob).filter (fun j => 0 < j.remaining)
      = (js.filter (fun j => TIME_QUANTUM < j.remaining)).map stepJob := by
  rw [filter_of_map]
  congr 1
  apply filter_congr_mem
  intro a _
  by_cases h : 0 < a.remaining
  · simp only [stepJob, if_pos h]
    by_cases h5 : TIME_QUANTUM < a.remaining
    · rw [min_eq_left h5.le]
      simp only [decide_eq_decide]
      omega
    · rw [min_eq_right (not_lt.mp h5)]
      simp only [decide_eq_decide]
      omega
  · simp only [stepJob, if_neg h, decide_eq_decide]
    have hq : (0 : Int) < TIME_QUANTUM := by norm_num [TIME_QUANTUM]
    omega

theorem step_filter_key (js : List RRJob) (sid name : String) :
    (js.map stepJob).filter (fun x => x.job.student_id = sid ∧ x.job.job_name = name)
      = (js.filter (fun x => x.job.student_id = sid ∧ x.job.job_name = name)).map
          stepJob := by
  rw [filter_of_map]
  congr 1
  apply filter_congr_mem
  intro a _
  simp [stepJob_job]

theorem map_job_mk (l : List RRJob) (s : String) :
    (l.map (fun j => (⟨j.job, s⟩ : CompletedRecord))).map (fun c => c.job)
      = l.map (fun j => j.job) := by
  rw [List.map_map]
  rfl

theorem cycle_trace_key (js : List RRJob) (sid name : String) :
    (((rrCycle js).2.1).filter (fun e => e.student_id = sid ∧ e.job_name = name)).map
        (fun e => e.run_time)
      = (((js.filter (fun j => 0 < j.remaining)).filter
            (fun x => x.job.student_id = sid ∧ x.job.job_name = name)).map
          (fun j => min TIME_QUANTUM j.remaining)) := by
  rw [rrCycle_trace, filter_of_map, List.map_map]
  rfl

theorem cycle_sum_key (l : List RRJob) :
    (((l.filter (fun j => 0 < j.remaining)).map
        (fun j => min TIME_QUANTUM j.remaining)).sum)
      + (((l.map stepJob).map (fun x => max x.remaining 0)).sum)
      = (l.map (fun x => max x.remaining 0)).sum := by
  induction l with
  | nil => simp
  | cons j rest ih =>
    rw [List.filter_cons, List.map_cons, List.map_cons, List.sum_cons,
      List.map_cons, List.sum_cons]
    by_cases h : 0 < j.remaining
    · rw [if_pos (by simpa using h), List.map_cons, List.sum_cons]
      have hstep : (stepJob j).remaining = j.remaining - min TIME_QUANTUM j.remaining := by
        simp [stepJob, if_pos h]
      rw [hstep]
      have hm : min TIME_QUANTUM j.remaining ≤ j.remaining := min_le_right _ _
      rw [max_eq_left
            (show (0 : Int) ≤ j.remaining - min TIME_QUANTUM j.remaining by omega),
        max_eq_left h.le]
      omega
    · rw [if_neg (by simpa using h)]
      have hstep : (stepJob j).remaining = j.remaining := by
        simp [stepJob, if_neg h]
      rw [hstep]
      omega

theorem rrLoopFuel_sum_key (fuel : Nat) (js : List RRJob) (sid name : String)
    (hfuel : totalRem js ≤ fuel) :
    ((((rrLoopFuel fuel js).1).filter
        (fun e => e.student_id = sid ∧ e.job_name = name)).map
          (fun e => e.run_time)).sum
      + ((((rrLoopFuel fuel js).2.2).filter
          (fun x => x.job.student_id = sid ∧ x.job.job_name = name)).map
            (fun x => max x.remaining 0)).sum
      = ((js.filter (fun x => x.job.student_id = sid ∧ x.job.job_name = name)).map
          (fun x => max x.remaining 0)).sum := by
  induction fuel generalizing js with
  | zero => simp [rrLoopFuel]
  | succ n ih =>
    by_cases h : js.any (fun j => 0 < j.remaining) = true
    · have hlt := totalRem_step_lt js h
      simp only [rrLoopFuel, if_pos h]
      rw [List.filter_append, List.map_append, List.sum_append, cycle_trace_key,
        rrCycle_fst]
      have hih := ih (js.map stepJob) (by omega)
      rw [step_filter_key] at hih
      have hc := cycle_sum_key
        (js.filter (fun x => x.job.student_id = sid ∧ x.job.job_name = name))
      rw [filter_comm_eq] at hc
      omega
    · simp only [rrLoopFuel, if_neg h]
      simp

/-! Every active job completes exactly once under Round Robin. -/

theorem filter_eq_nil_of_none {α : Type} {p : α → Bool} {l : List α}
    (h : ∀ a ∈ l, p a = false) : l.filter p = [] := by
  induction l with
  | nil => rfl
  | cons a rest ih =>
    simp [List.filter_cons, h a (List.mem_cons_self a rest),
      ih fun x hx => h x (List.mem_cons_of_mem a hx)]

theorem filter_eq_self_of_all {α : Type} {p : α → Bool} {l : List α}
    (h : ∀ a ∈ l, p a = true) : l.filter p = l := by
  induction l with
  | nil => rfl
  | cons a rest ih =>
    simp [List.filter_cons, h a (List.mem_cons_self a rest),
      ih fun x hx => h x (List.mem_cons_of_mem a hx)]

theorem filter_active_partition (js : List RRJob) :
    List.Perm (js.filter (fun j => 0 < j.remaining))
      ((js.filter (fun j => 0 < j.remaining ∧ j.remaining ≤ TIME_QUANTUM))
        ++ js.filter (fun j => TIME_QUANTUM < j.remaining)) := by
  induction js with
  | nil => simp
  | cons j rest ih =>
    rw [List.filter_cons, List.filter_cons, List.filter_cons]
    by_cases h : 0 < j.remaining
    · by_cases h5 : j.remaining ≤ TIME_QUANTUM
      · have h2 : ¬TIME_QUANTUM < j.remaining := not_lt.mpr h5
        rw [if_pos (by simpa using h), if_pos (by simp [h, h5]),
          if_neg (by simpa using h2), List.cons_append]
        exact ih.cons j
      · have h2 : TIME_QUANTUM < j.remaining := not_le.mp h5
        rw [if_pos (by simpa using h), if_neg (by simp [h, h5]),
          if_pos (by simpa using h2)]
        exact (ih.cons j).trans List.perm_middle.symm
    · have h2 : ¬TIME_QUANTUM < j.remaining := by
        have hq : (0 : Int) < TIME_QUANTUM := by norm_num [TIME_QUANTUM]
        omega
      rw [if_neg (by simpa using h), if_neg (by simp [h]),
        if_neg (by simpa using h2)]
      exact ih

theorem rrLoopFuel_comp_perm (fuel : Nat) (js : List RRJob)
    (hfuel : totalRem js ≤ fuel) :
    List.Perm (((rrLoopFuel fuel js).2.1).map (fun c => c.job))
      ((js.filter (fun j => 0 < j.remaining)).map (fun j => j.job)) := by
  induction fuel generalizing js with
  | zero =>
    have h0 : totalRem js = 0 := Nat.le_zero.mp hfuel
    have hnil : js.filter (fun j => 0 < j.remaining) = [] := by
      apply filter_eq_nil_of_none
      intro a ha
      have := totalRem_zero_rem js h0 a ha
      simp only [decide_eq_false_iff_not]
      omega
    simp [rrLoopFuel, hnil]
  | succ n ih =>
    by_cases h : js.any (fun j => 0 < j.remaining) = true
    · have hlt := totalRem_step_lt js h
      simp only [rrLoopFuel, if_pos h]
      rw [List.map_append, rrCycle_comp, map_job_mk, rrCycle_fst]
      have hih := ih (js.map stepJob) (by omega)
      rw [step_filter_active, map_job_step] at hih
      refine List.Perm.trans (List.Perm.append_left _ hih) ?_
      rw [← List.map_append]
      exact ((filter_active_partition js).map (fun j => j.job)).symm
    · simp only [rrLoopFuel, if_neg h]
      have hf : js.any (fun j => 0 < j.remaining) = false := by
        revert h; cases js.any (fun j => 0 < j.remaining) <;> simp
      have hnil : js.filter (fun j => 0 < j.remaining) = [] := by
        apply filter_eq_nil_of_none
        intro a ha
        have h2 := List.any_eq_false.mp hf a ha
        simpa using h2
      simp [hnil]

/-- C1: on a non-empty pending set of jobs with positive `total_time`, both
strategies complete every input job exactly once, and per job identity the
total trace time granted equals the total requested execution time. -/
theorem run_completes_every_job (jobs : List Job) (hne : jobs ≠ [])
    (hpos : ∀ j ∈ jobs, 0 < j.exec_time) :
    List.Perm (((round_robin_scheduling jobs).2.1).map (fun c => c.job)) jobs
    ∧ List.Perm (((priority_scheduling jobs).2.1).map (fun c => c.job)) jobs
    ∧ (∀ sid name : String,
        ((((round_robin_scheduling jobs).1).filter
            (fun e => e.student_id = sid ∧ e.job_name = name)).map
              (fun e => e.run_time)).sum
          = ((jobs.filter (fun j => j.student_id = sid ∧ j.job_name = name)).map
              (fun j => j.exec_time)).sum)
    ∧ (∀ sid name : String,
        ((((priority_scheduling jobs).1).filter
            (fun e => e.student_id = sid ∧ e.job_name = name)).map
              (fun e => e.exec_time)).sum
          = ((jobs.filter (fun j => j.student_id = sid ∧ j.job_name = name)).map
              (fun j => j.exec_time)).sum) := by
  have hact : (rrInit jobs).filter (fun j => 0 < j.remaining) = rrInit jobs := by
    apply filter_eq_self_of_all
    intro a ha
    rw [rrInit, List.mem_map] at ha
    obtain ⟨x, hx, rfl⟩ := ha
    simpa using hpos x hx
  have hmapinit : (rrInit jobs).map (fun j : RRJob => j.job) = jobs := by
    rw [rrInit, List.map_map]
    exact List.map_id _
  refine ⟨?_, ?_, ?_, ?_⟩
  · simp only [round_robin_scheduling, if_neg hne]
    refine (rrLoopFuel_comp_perm _ _ (le_refl _)).trans ?_
    rw [hact, hmapinit]
  · have hcompp : (priority_scheduling jobs).2.1.map (fun c => c.job)
        = sortJobs jobs := by
      simp only [priority_scheduling, if_neg hne, List.map_map]
      exact List.map_id _
    rw [hcompp]
    exact sortJobs_perm jobs
  · intro sid name
    simp only [round_robin_scheduling, if_neg hne]
    have hsum := rrLoopFuel_sum_key (totalRem (rrInit jobs)) (rrInit jobs) sid name
      (le_refl _)
    have hzero : ∀ x ∈ (rrLoopFuel (totalRem (rrInit jobs)) (rrInit jobs)).2.2,
        x.remaining = 0 := by
      apply rrLoopFuel_final_zero _ _ (le_refl _)
      intro j hj
      rw [rrInit, List.mem_map] at hj
      obtain ⟨a, ha, rfl⟩ := hj
      exact (hpos a ha).le
    have hfin0 : ((((rrLoopFuel (totalRem (rrInit jobs)) (rrInit jobs)).2.2).filter
        (fun x => x.job.student_id = sid ∧ x.job.job_name = name)).map
          (fun x => max x.remaining 0)).sum = 0 := by
      apply List.sum_eq_zero
      intro v hv
      rw [List.mem_map] at hv
      obtain ⟨x, hx, rfl⟩ := hv
      rw [List.mem_filter] at hx
      rw [hzero x hx.1]
      simp
    have hinit : (((rrInit jobs).filter
        (fun x => x.job.student_id = sid ∧ x.job.job_name = name)).map
          (fun x => max x.remaining 0))
        = ((jobs.filter (fun j => j.student_id = sid ∧ j.job_name = name)).map
            (fun j => max j.exec_time 0)) := by
      rw [rrInit, filter_of_map, List.map_map]
      rfl
    have hmax : ((jobs.filter (fun j => j.student_id = sid ∧ j.job_name = name)).map
          (fun j => max j.exec_time 0))
        = ((jobs.filter (fun j => j.student_id = sid ∧ j.job_name = name)).map
            (fun j => j.exec_time)) := by
      apply map_congr_mem
      intro a ha
      rw [List.mem_filter] at ha
      exact max_eq_left (hpos a ha.1).le
    rw [hfin0, add_zero, hinit, hmax] at hsum
    exact hsum
  · intro sid name
    simp only [priority_scheduling, if_neg hne]
    rw [filter_of_map, List.map_map]
    exact List.Perm.sum_eq
      (((sortJobs_perm jobs).filter _).map _)

theorem run_completes_every_job_witness :
    (([⟨"S1", "A", 12, 5⟩, ⟨"S2", "B", 3, 7⟩] : List Job) ≠ []
      ∧ ∀ j ∈ ([⟨"S1", "A", 12, 5⟩, ⟨"S2", "B", 3, 7⟩] : List Job), 0 < j.exec_time)
    ∧ (List.Perm (((round_robin_scheduling
          [⟨"S1", "A", 12, 5⟩, ⟨"S2", "B", 3, 7⟩]).2.1).map (fun c => c.job))
        [⟨"S1", "A", 12, 5⟩, ⟨"S2", "B", 3, 7⟩]
      ∧ List.Perm (((priority_scheduling
          [⟨"S1", "A", 12, 5⟩, ⟨"S2", "B", 3, 7⟩]).2.1).map (fun c => c.job))
        [⟨"S1", "A", 12, 5⟩, ⟨"S2", "B", 3, 7⟩]
      ∧ (∀ sid name : String,
          ((((round_robin_scheduling [⟨"S1", "A", 12, 5⟩, ⟨"S2", "B", 3, 7⟩]).1).filter
              (fun e => e.student_id = sid ∧ e.job_name = name)).map
                (fun e => e.run_time)).sum
            = ((([⟨"S1", "A", 12, 5⟩, ⟨"S2", "B", 3, 7⟩] : List Job).filter
                (fun j => j.student_id = sid ∧ j.job_name = name)).map
                  (fun j => j.exec_time)).sum)
      ∧ (∀ sid name : String,
          ((((priority_scheduling [⟨"S1", "A", 12, 5⟩, ⟨"S2", "B", 3, 7⟩]).1).filter
              (fun e => e.student_id = sid ∧ e.job_name = name)).map
                (fun e => e.exec_time)).sum
            = ((([⟨"S1", "A", 12, 5⟩, ⟨"S2", "B", 3, 7⟩] : List Job).filter
                (fun j => j.student_id = sid ∧ j.job_name = name)).map
                  (fun j => j.exec_time)).sum)) :=
  ⟨⟨by decide, by decide⟩,
    run_completes_every_job [⟨"S1", "A", 12, 5⟩, ⟨"S2", "B", 3, 7⟩]
      (by decide) (by decide)⟩

theorem slicesFuel_nil_of_nonpos (n : Nat) (r : Int) (h : r ≤ 0) :
    slicesFuel n r = [] := by
  cases n with
  | zero => rfl
  | succ n => simp [slicesFuel, show ¬0 < r from not_lt.mpr h]

theorem slicesFuel_congr (n : Nat) :
    ∀ (m : Nat) (r : Int), r.toNat ≤ n → r.toNat ≤ m →
      slicesFuel n r = slicesFuel m r := by
  induction n with
  | zero =>
    intro m r hn hm
    have hr : r ≤ 0 := by omega
    rw [slicesFuel_nil_of_nonpos 0 r hr, slicesFuel_nil_of_nonpos m r hr]
  | succ n ih =>
    intro m r hn hm
    by_cases hr : 0 < r
    · have h1 : 0 < min TIME_QUANTUM r := lt_min (by norm_num [TIME_QUANTUM]) hr
      have h2 : min TIME_QUANTUM r ≤ r := min_le_right _ _
      cases m with
      | zero => omega
      | succ m =>
        simp only [slicesFuel, if_pos hr]
        exact congrArg (fun l => min TIME_QUANTUM r :: l)
          (ih m (r - min TIME_QUANTUM r) (by omega) (by omega))
    · have hr' : r ≤ 0 := not_lt.mp hr
      rw [slicesFuel_nil_of_nonpos _ r hr', slicesFuel_nil_of_nonpos m r hr']

theorem slices_unfold_pos (r : Int) (h : 0 < r) :
    slices r = min TIME_QUANTUM r :: slices (r - min TIME_QUANTUM r) := by
  rw [slices, slices]
  have h1 : 0 < min TIME_QUANTUM r := lt_min (by norm_num [TIME_QUANTUM]) h
  have h2 : min TIME_QUANTUM r ≤ r := min_le_right _ _
  obtain ⟨k, hk⟩ : ∃ k, r.toNat = k + 1 := ⟨r.toNat - 1, by omega⟩
  rw [hk]
  simp only [slicesFuel, if_pos h]
  exact congrArg (fun l => min TIME_QUANTUM r :: l)
    (slicesFuel_congr k _ (r - min TIME_QUANTUM r) (by omega) (le_refl _))

theorem slices_nonpos (r : Int) (h : r ≤ 0) : slices r = [] := by
  rw [slices]
  exact slicesFuel_nil_of_nonpos _ r h

theorem slicesFuel_length (n : Nat) :
    ∀ r : Int, r.toNat ≤ n → 0 ≤ r →
      (slicesFuel n r).length = ((r + TIME_QUANTUM - 1) / TIME_QUANTUM).toNat := by
  induction n with
  | zero =>
    intro r hn h
    have : r = 0 := by omega
    subst this
    simp [slicesFuel, TIME_QUANTUM]
  | succ n ih =>
    intro r hn h
    by_cases hr : 0 < r
    · simp only [slicesFuel, if_pos hr, List.length_cons]
      have h1 : 0 < min TIME_QUANTUM r := lt_min (by norm_num [TIME_QUANTUM]) hr
      have h2 : min TIME_QUANTUM r ≤ r := min_le_right _ _
      rw [ih (r - min TIME_QUANTUM r) (by omega) (by omega)]
      rcases le_or_lt r TIME_QUANTUM with h5 | h5
      · rw [min_eq_right h5]
        simp only [TIME_QUANTUM] at *
        omega
      · rw [min_eq_left h5.le]
        simp only [TIME_QUANTUM] at *
        omega
    · have : r = 0 := by omega
      subst this
      simp [slicesFuel, TIME_QUANTUM]

theorem slicesFuel_dropLast (n : Nat) :
    ∀ r : Int, r.toNat ≤ n →
      ∀ x ∈ (slicesFuel n r).dropLast, x = TIME_QUANTUM := by
  induction n with
  | zero => intro r hn x hx; simp [slicesFuel] at hx
  | succ n ih =>
    intro r hn x hx
    by_cases hr : 0 < r
    · have h1 : 0 < min TIME_QUANTUM r := lt_min (by norm_num [TIME_QUANTUM]) hr
      have h2 : min TIME_QUANTUM r ≤ r := min_le_right _ _
      rw [show slicesFuel (n + 1) r
          = min TIME_QUANTUM r :: slicesFuel n (r - min TIME_QUANTUM r) from by
        simp [slicesFuel, if_pos hr]] at hx
      cases htail : slicesFuel n (r - min TIME_QUANTUM r) with
      | nil => rw [htail] at hx; simp at hx
      | cons b l =>
        rw [htail, show (min TIME_QUANTUM r :: b :: l).dropLast
            = min TIME_QUANTUM r :: (b :: l).dropLast from rfl] at hx
        rcases List.mem_cons.mp hx with rfl | hx2
        · have hpos2 : 0 < r - min TIME_QUANTUM r := by
            by_contra hc
            have hnil := slicesFuel_nil_of_nonpos n (r - min TIME_QUANTUM r) (by omega)
            rw [htail] at hnil
            simp at hnil
          have h5 : TIME_QUANTUM < r := by
            by_contra hc
            rw [min_eq_right (not_lt.mp hc)] at hpos2
            omega
          rw [min_eq_left h5.le]
        · have hrec := ih (r - min TIME_QUANTUM r) (by omega)
          rw [htail] at hrec
          exact hrec x hx2
    · rw [slicesFuel_nil_of_nonpos _ r (not_lt.mp hr)] at hx
      simp at hx

theorem slicesFuel_pos (n : Nat) :
    ∀ r : Int, ∀ x ∈ slicesFuel n r, 0 < x := by
  induction n with
  | zero => intro r x hx; simp [slicesFuel] at hx
  | succ n ih =>
    intro r x hx
    by_cases hr : 0 < r
    · simp only [slicesFuel, if_pos hr] at hx
      rcases List.mem_cons.mp hx with rfl | hx2
      · exact lt_min (by norm_num [TIME_QUANTUM]) hr
      · exact ih _ x hx2
    · rw [slicesFuel_nil_of_nonpos _ r (not_lt.mp hr)] at hx
      simp at hx

theorem slicesFuel_replicate (n : Nat) :
    ∀ r : Int, r.toNat ≤ n → 0 ≤ r → r % TIME_QUANTUM = 0 →
      slicesFuel n r = List.replicate (r / TIME_QUANTUM).toNat TIME_QUANTUM := by
  induction n with
  | zero =>
    intro r hn h0 hm
    have : r = 0 := by omega
    subst this
    simp [slicesFuel, TIME_QUANTUM]
  | succ n ih =>
    intro r hn h0 hm
    by_cases hr : 0 < r
    · have h5 : TIME_QUANTUM ≤ r := by
        simp only [TIME_QUANTUM] at *
        omega
      simp only [slicesFuel, if_pos hr, min_eq_left h5]
      rw [ih (r - TIME_QUANTUM)
          (by simp only [TIME_QUANTUM] at *; omega)
          (by simp only [TIME_QUANTUM] at *; omega)
          (by simp only [TIME_QUANTUM] at *; omega)]
      have hsucc : (r / TIME_QUANTUM).toNat
          = ((r - TIME_QUANTUM) / TIME_QUANTUM).toNat + 1 := by
        simp only [TIME_QUANTUM] at *
        omega
      rw [hsucc, List.replicate_succ]
    · have : r = 0 := by omega
      subst this
      simp [slicesFuel, TIME_QUANTUM]

theorem flatten_eq_nil_of_mem {α : Type} {l : List (List α)}
    (h : ∀ x ∈ l, x = ([] : List α)) : l.flatten = [] := by
  induction l with
  | nil => rfl
  | cons a rest ih =>
    rw [List.flatten_cons, h a (List.mem_cons_self a rest), List.nil_append]
    exact ih fun x hx => h x (List.mem_cons_of_mem a hx)

theorem rrLoopFuel_grants (fuel : Nat) (js : List RRJob) (sid name : String)
    (hfuel : totalRem js ≤ fuel)
    (hcard : (js.filter
        (fun x => x.job.student_id = sid ∧ x.job.job_name = name)).length ≤ 1) :
    (((rrLoopFuel fuel js).1).filter
        (fun e => e.student_id = sid ∧ e.job_name = name)).map (fun e => e.run_time)
      = ((js.filter (fun x => x.job.student_id = sid ∧ x.job.job_name = name)).map
          (fun j => slices j.remaining)).flatten := by
  induction fuel generalizing js with
  | zero =>
    have h0 : totalRem js = 0 := Nat.le_zero.mp hfuel
    simp only [rrLoopFuel, List.filter_nil, List.map_nil]
    symm
    apply flatten_eq_nil_of_mem
    intro x hx
    rw [List.mem_map] at hx
    obtain ⟨a, ha, rfl⟩ := hx
    rw [List.mem_filter] at ha
    have := totalRem_zero_rem js h0 a ha.1
    exact slices_nonpos _ (by omega)
  | succ n ih =>
    by_cases h : js.any (fun j => 0 < j.remaining) = true
    · have hlt := totalRem_step_lt js h
      simp only [rrLoopFuel, if_pos h]
      rw [List.filter_append, List.map_append, cycle_trace_key, rrCycle_fst,
        filter_comm_eq]
      have hcard2 : ((js.map stepJob).filter
          (fun x => x.job.student_id = sid ∧ x.job.job_name = name)).length ≤ 1 := by
        rw [step_filter_key, List.length_map]
        exact hcard
      rw [ih (js.map stepJob) (by omega) hcard2, step_filter_key, List.map_map]
      cases hfk : js.filter
          (fun x => x.job.student_id = sid ∧ x.job.job_name = name) with
      | nil => simp
      | cons j0 tl =>
        have htl : tl = [] := by
          rw [hfk] at hcard
          simp only [List.length_cons] at hcard
          exact List.eq_nil_of_length_eq_zero (by omega)
        subst htl
        by_cases hr : 0 < j0.remaining
        · rw [List.filter_cons, if_pos (by simpa using hr)]
          simp only [List.filter_nil, List.map_cons, List.map_nil,
            List.flatten_cons, List.flatten_nil, List.append_nil,
            Function.comp_apply]
          have hstep : (stepJob j0).remaining
              = j0.remaining - min TIME_QUANTUM j0.remaining := by
            simp [stepJob, if_pos hr]
          rw [hstep, slices_unfold_pos j0.remaining hr, List.singleton_append]
        · rw [List.filter_cons, if_neg (by simpa using hr)]
          simp only [List.filter_nil, List.map_cons, List.map_nil,
            List.flatten_cons, List.flatten_nil, List.append_nil,
            List.nil_append, Function.comp_apply]
          have hstep : (stepJob j0).remaining = j0.remaining := by
            simp [stepJob, if_neg hr]
          rw [hstep]
    · simp only [rrLoopFuel, if_neg h]
      have hf : js.any (fun j => 0 < j.remaining) = false := by
        revert h; cases js.any (fun j => 0 < j.remaining) <;> simp
      simp only [List.filter_nil, List.map_nil]
      symm
      apply flatten_eq_nil_of_mem
      intro x hx
      rw [List.mem_map] at hx
      obtain ⟨a, ha, rfl⟩ := hx
      rw [List.mem_filter] at ha
      have h2 := List.any_eq_false.mp hf a ha.1
      simp only [decide_eq_true_eq] at h2
      exact slices_nonpos _ (by omega)

theorem jobGrants_eq_slices (jobs : List Job) (j : Job) (hj : j ∈ jobs)
    (huniq : jobs.filter
        (fun k => k.student_id = j.student_id ∧ k.job_name = j.job_name) = [j]) :
    jobGrants (round_robin_scheduling jobs).1 j = slices j.exec_time := by
  have hne : jobs ≠ [] := by
    intro he
    rw [he] at hj
    simp at hj
  have hfk : (rrInit jobs).filter
      (fun x => x.job.student_id = j.student_id ∧ x.job.job_name = j.job_name)
      = [⟨j, j.exec_time⟩] := by
    rw [rrInit, filter_of_map]
    show (jobs.filter
        (fun k => k.student_id = j.student_id ∧ k.job_name = j.job_name)).map
          (fun a => (⟨a, a.exec_time⟩ : RRJob)) = [⟨j, j.exec_time⟩]
    rw [huniq]
    rfl
  rw [jobGrants]
  simp only [round_robin_scheduling, if_neg hne, rrRun]
  rw [rrLoopFuel_grants (totalRem (rrInit jobs)) (rrInit jobs) j.student_id
      j.job_name (le_refl _) (by rw [hfk]; simp), hfk]
  simp [List.flatten_cons]

/-- C3: under Round Robin with quantum 5, a job of positive `total_time = T`
(unique for its student id and job name) gets exactly `ceil(T / 5)` trace
entries; all but the last grant exactly the quantum, every grant is
positive (no trailing zero-size entry), and when `T` is a multiple of 5 the
grants are exactly `T / 5` full quanta. -/
theorem rr_quantum_slicing (jobs : List Job) (j : Job) (hj : j ∈ jobs)
    (huniq : jobs.filter
        (fun k => k.student_id = j.student_id ∧ k.job_name = j.job_name) = [j])
    (hpos : 0 < j.exec_time) :
    (jobGrants (round_robin_scheduling jobs).1 j).length
        = ((j.exec_time + TIME_QUANTUM - 1) / TIME_QUANTUM).toNat
    ∧ (∀ x ∈ (jobGrants (round_robin_scheduling jobs).1 j).dropLast,
        x = TIME_QUANTUM)
    ∧ (∀ x ∈ jobGrants (round_robin_scheduling jobs).1 j, 0 < x)
    ∧ (j.exec_time % TIME_QUANTUM = 0 →
        jobGrants (round_robin_scheduling jobs).1 j
          = List.replicate (j.exec_time / TIME_QUANTUM).toNat TIME_QUANTUM) := by
  rw [jobGrants_eq_slices jobs j hj huniq, slices]
  exact ⟨slicesFuel_length _ _ (le_refl _) hpos.le,
    slicesFuel_dropLast _ _ (le_refl _),
    slicesFuel_pos _ _,
    fun hm => slicesFuel_replicate _ _ (le_refl _) hpos.le hm⟩

theorem rr_quantum_slicing_witness :
    ((⟨"S1", "A", 12, 5⟩ : Job) ∈ ([⟨"S1", "A", 12, 5⟩] : List Job)
      ∧ ([⟨"S1", "A", 12, 5⟩] : List Job).filter
          (fun k => k.student_id = (⟨"S1", "A", 12, 5⟩ : Job).student_id
            ∧ k.job_name = (⟨"S1", "A", 12, 5⟩ : Job).job_name)
          = [⟨"S1", "A", 12, 5⟩]
      ∧ 0 < (⟨"S1", "A", 12, 5⟩ : Job).exec_time)
    ∧ ((jobGrants (round_robin_scheduling [⟨"S1", "A", 12, 5⟩]).1
          ⟨"S1", "A", 12, 5⟩).length
        = (((⟨"S1", "A", 12, 5⟩ : Job).exec_time + TIME_QUANTUM - 1)
            / TIME_QUANTUM).toNat
      ∧ (∀ x ∈ (jobGrants (round_robin_scheduling [⟨"S1", "A", 12, 5⟩]).1
            ⟨"S1", "A", 12, 5⟩).dropLast, x = TIME_QUANTUM)
      ∧ (∀ x ∈ jobGrants (round_robin_scheduling [⟨"S1", "A", 12, 5⟩]).1
            ⟨"S1", "A", 12, 5⟩, 0 < x)
      ∧ ((⟨"S1", "A", 12, 5⟩ : Job).exec_time % TIME_QUANTUM = 0 →
          jobGrants (round_robin_scheduling [⟨"S1", "A", 12, 5⟩]).1
              ⟨"S1", "A", 12, 5⟩
            = List.replicate
                ((⟨"S1", "A", 12, 5⟩ : Job).exec_time / TIME_QUANTUM).toNat
                TIME_QUANTUM)) :=
  ⟨⟨by decide, by decide, by decide⟩,
    rr_quantum_slicing [⟨"S1", "A", 12, 5⟩] ⟨"S1", "A", 12, 5⟩
      (by decide) (by decide) (by decide)⟩

/-- C10: a pending job with `exec_time ≤ 0` (violating the admission
invariant, which the engine does not re-check) is silently lost by Round
Robin — no trace entry, no completed record, yet the queue is still cleared
— while Priority emits exactly one trace entry and one completed record for
it. -/
theorem nonpositive_job_lost (jobs : List Job) (j : Job) (hj : j ∈ jobs)
    (hnp : j.exec_time ≤ 0)
    (huniq : jobs.filter
        (fun k => k.student_id = j.student_id ∧ k.job_name = j.job_name) = [j]) :
    jobGrants (round_robin_scheduling jobs).1 j = []
    ∧ ((round_robin_scheduling jobs).2.1).filter (fun c => c.job = j) = []
    ∧ (round_robin_scheduling jobs).2.2 = []
    ∧ (((priority_scheduling jobs).1).filter
        (fun e => e.student_id = j.student_id ∧ e.job_name = j.job_name)).length = 1
    ∧ (((priority_scheduling jobs).2.1).filter (fun c => c.job = j)).length = 1 := by
  have hne : jobs ≠ [] := by
    intro he
    rw [he] at hj
    simp at hj
  refine ⟨?_, ?_, ?_, ?_, ?_⟩
  · rw [jobGrants_eq_slices jobs j hj huniq]
    exact slices_nonpos _ hnp
  · apply filter_eq_nil_of_none
    intro c hc
    simp only [decide_eq_false_iff_not]
    intro hcj
    have hmem : j ∈ ((round_robin_scheduling jobs).2.1).map (fun c => c.job) := by
      rw [List.mem_map]
      exact ⟨c, hc, hcj⟩
    simp only [round_robin_scheduling, if_neg hne, rrRun] at hmem
    have hperm := rrLoopFuel_comp_perm (totalRem (rrInit jobs)) (rrInit jobs)
      (le_refl _)
    have hmem2 := hperm.mem_iff.mp hmem
    rw [List.mem_map] at hmem2
    obtain ⟨x, hx, hxj⟩ := hmem2
    rw [List.mem_filter] at hx
    obtain ⟨hx1, hx2⟩ := hx
    rw [rrInit, List.mem_map] at hx1
    obtain ⟨k, hk, rfl⟩ := hx1
    simp only [decide_eq_true_eq] at hx2
    have hkj : k = j := hxj
    subst hkj
    omega
  · simp only [round_robin_scheduling, if_neg hne]
  · simp only [priority_scheduling, if_neg hne]
    rw [filter_of_map, List.length_map]
    show ((sortJobs jobs).filter
        (fun k => k.student_id = j.student_id ∧ k.job_name = j.job_name)).length = 1
    have hp := ((sortJobs_perm jobs).filter
      (fun k => decide (k.student_id = j.student_id ∧ k.job_name = j.job_name))).length_eq
    rw [hp, huniq]
    rfl
  · simp only [priority_scheduling, if_neg hne]
    rw [filter_of_map, List.length_map]
    show ((sortJobs jobs).filter (fun a => a = j)).length = 1
    have hp := ((sortJobs_perm jobs).filter (fun a => decide (a = j))).length_eq
    rw [hp]
    have hjj : jobs.filter (fun a => a = j) = [j] := by
      have h1 : (jobs.filter
          (fun k => k.student_id = j.student_id ∧ k.job_name = j.job_name)).filter
            (fun a => a = j) = [j] := by
        rw [huniq]
        simp [List.filter_cons]
      rw [filter_filter_eq] at h1
      rw [← h1]
      apply filter_congr_mem
      intro a _
      by_cases he : a = j
      · subst he
        simp
      · simp [he]
    rw [hjj]
    rfl

theorem nonpositive_job_lost_witness :
    ((⟨"S1", "A", 0, 5⟩ : Job) ∈ ([⟨"S1", "A", 0, 5⟩, ⟨"S2", "B", 3, 7⟩] : List Job)
      ∧ (⟨"S1", "A", 0, 5⟩ : Job).exec_time ≤ 0
      ∧ ([⟨"S1", "A", 0, 5⟩, ⟨"S2", "B", 3, 7⟩] : List Job).filter
          (fun k => k.student_id = (⟨"S1", "A", 0, 5⟩ : Job).student_id
            ∧ k.job_name = (⟨"S1", "A", 0, 5⟩ : Job).job_name)
          = [⟨"S1", "A", 0, 5⟩])
    ∧ (jobGrants
          (round_robin_scheduling [⟨"S1", "A", 0, 5⟩, ⟨"S2", "B", 3, 7⟩]).1
          ⟨"S1", "A", 0, 5⟩ = []
      ∧ ((round_robin_scheduling [⟨"S1", "A", 0, 5⟩, ⟨"S2", "B", 3, 7⟩]).2.1).filter
          (fun c => c.job = ⟨"S1", "A", 0, 5⟩) = []
      ∧ (round_robin_scheduling [⟨"S1", "A", 0, 5⟩, ⟨"S2", "B", 3, 7⟩]).2.2 = []
      ∧ (((priority_scheduling [⟨"S1", "A", 0, 5⟩, ⟨"S2", "B", 3, 7⟩]).1).filter
          (fun e => e.student_id = (⟨"S1", "A", 0, 5⟩ : Job).student_id
            ∧ e.job_name = (⟨"S1", "A", 0, 5⟩ : Job).job_name)).length = 1
      ∧ (((priority_scheduling [⟨"S1", "A", 0, 5⟩, ⟨"S2", "B", 3, 7⟩]).2.1).filter
          (fun c => c.job = ⟨"S1", "A", 0, 5⟩)).length = 1) :=
  ⟨⟨by decide, by decide, by decide⟩,
    nonpositive_job_lost [⟨"S1", "A", 0, 5⟩, ⟨"S2", "B", 3, 7⟩] ⟨"S1", "A", 0, 5⟩
      (by decide) (by decide) (by decide)⟩

-- The spec's two concrete scenarios, evaluated on the embedding.
example :
    round_robin_scheduling [⟨"S1", "A", 12, 5⟩, ⟨"S2", "B", 3, 7⟩]
      = ([⟨"S1", "A", 5, 7⟩, ⟨"S2", "B", 3, 0⟩, ⟨"S1", "A", 5, 2⟩, ⟨"S1", "A", 2, 0⟩],
         [⟨⟨"S2", "B", 3, 7⟩, "RoundRobin"⟩, ⟨⟨"S1", "A", 12, 5⟩, "RoundRobin"⟩],
         []) := by decide

example :
    priority_scheduling [⟨"S1", "A", 10, 3⟩, ⟨"S2", "B", 4, 9⟩, ⟨"S3", "C", 6, 9⟩]
      = ([⟨"S2", "B", 4, 9⟩, ⟨"S3", "C", 6, 9⟩, ⟨"S1", "A", 10, 3⟩],
         [⟨⟨"S2", "B", 4, 9⟩, "Priority"⟩, ⟨⟨"S3", "C", 6, 9⟩, "Priority"⟩,
          ⟨⟨"S1", "A", 10, 3⟩, "Priority"⟩],
         []) := by decide

end Scheduler
